import Mathlib

/-!
Shallow embedding of the MCP chat backend (server.ts) of robosushie/mcp-demo.

JavaScript strings are modelled as lists of characters (`Str`); `.length`,
`.slice`, `+`, `.split`, `.startsWith` become `List.length`, `List.take` /
`List.drop`, `++`, `splitOn`, `isPrefixOf`.  JSON values that the code only
serializes (structured message contents, tool results) are modelled by their
serialized string; JSON.parse / JSON.stringify are modelled as total on those
representations (their exception paths are out of scope).  The JS `Map` is
modelled as an association list in insertion order.
-/

namespace MCPDemo

/-- JS string, modelled as a list of characters. -/
abbrev Str := List Char

-- --------------------------------------------------
-- Singletons and constants (server.ts lines 22-45)
-- --------------------------------------------------

def MAX_CONTEXT_TOKENS : Nat := 120000

def APPROX_TOKENS_PER_MSG : Nat := 2000

def BYTES_PER_TOKEN : Nat := 3

def MAX_SINGLE_MSG_TOKENS : Nat := 8000

/-- strTokens: `Math.ceil(Math.min(str.length, 1_000_000) / BYTES_PER_TOKEN)`. -/
def strTokens (s : Str) : Nat :=
  (min s.length 1000000 + (BYTES_PER_TOKEN - 1)) / BYTES_PER_TOKEN

-- --------------------------------------------------
-- Messages (ChatCompletionMessageParam, as used by the code)
-- --------------------------------------------------

/-- Message content: a string, `null`, or any other structured value
(modelled by its `JSON.stringify` serialization, which is all the code
observes of it). -/
inductive Content where
  | str (s : Str)
  | null
  | other (json : Str)
deriving DecidableEq

structure ToolCallFunction where
  name : Str
  arguments : Str
deriving DecidableEq

structure ToolCall where
  id : Str
  function : Option ToolCallFunction
deriving DecidableEq

structure Message where
  role : Str
  content : Content
  tool_calls : List ToolCall := []
  tool_call_id : Option Str := none
deriving DecidableEq

def sysRole : Str := "system".data

def assistantRole : Str := "assistant".data

def toolRole : Str := "tool".data

def userRole : Str := "user".data

def truncMarker : Str := "…[truncated]".data

/-- clipMessage (server.ts lines 46-53): contents other than strings are left
untouched; an oversized string content is sliced to
`MAX_SINGLE_MSG_TOKENS * BYTES_PER_TOKEN` characters and the marker appended. -/
def clipContent : Content → Content
  | .str s =>
      if MAX_SINGLE_MSG_TOKENS < strTokens s then
        .str (s.take (MAX_SINGLE_MSG_TOKENS * BYTES_PER_TOKEN) ++ truncMarker)
      else .str s
  | c => c

def clipMessage (m : Message) : Message :=
  { m with content := clipContent m.content }

/-- msgTokens (server.ts lines 55-59). -/
def msgTokens (m : Message) : Nat :=
  match m.content with
  | .null => 4
  | .str s => strTokens s
  | .other j => strTokens j

/-- totalTokens (server.ts lines 60-62): `reduce((sum, m) => sum + msgTokens(m), 0)`. -/
def totalTokens (ms : List Message) : Nat :=
  ms.foldl (fun sum m => sum + msgTokens m) 0

/-- The body of `pruned.findIndex((m) => m.role !== 'system')` followed by
`pruned.splice(idx, 1)`: remove the first non-system message, or return
`none` when every message is a system message (findIndex gave -1). -/
def removeFirstNonSystem : List Message → Option (List Message)
  | [] => none
  | m :: rest =>
      if m.role = sysRole then (removeFirstNonSystem rest).map (fun r => m :: r)
      else some rest

/-- The `while` loop of pruneConversation (server.ts lines 80-84). -/
def pruneLoop (ms : List Message) : List Message :=
  if MAX_CONTEXT_TOKENS < totalTokens ms ∧ 1 < ms.length then
    match h : removeFirstNonSystem ms with
    | none => ms
    | some ms' => pruneLoop ms'
  else ms
termination_by ms.length
decreasing_by
  have hlen : ∀ l : List Message, ∀ l' : List Message,
      removeFirstNonSystem l = some l' → l'.length + 1 = l.length := by
    intro l
    induction l with
    | nil => intro l' hh; simp [removeFirstNonSystem] at hh
    | cons m rest ih =>
        intro l' hh
        by_cases hm : m.role = sysRole
        · simp only [removeFirstNonSystem, if_pos hm, Option.map_eq_some'] at hh
          obtain ⟨r, hr, rfl⟩ := hh
          simp [ih r hr]
        · simp only [removeFirstNonSystem, if_neg hm, Option.some_inj] at hh
          subst hh
          simp
  have := hlen ms ms' h
  omega

/-- pruneConversation (server.ts lines 69-87): copy each message while
clipping giant contents, then drop oldest non-system messages while over
budget and more than one message remains. -/
def pruneConversation (messages : List Message) : List Message :=
  pruneLoop (messages.map clipMessage)

-- --------------------------------------------------
-- Namespacing: encode in the tools list (line 236), decode in /api/chat
-- (lines 268-269)
-- --------------------------------------------------

/-- JS `String.prototype.split` with a single-character separator; the result
is always a non-empty list of separator-free segments. -/
def splitOn (sep : Char) : Str → List Str
  | [] => [[]]
  | c :: rest =>
      match splitOn sep rest with
      | [] => [[]]
      | s :: ss => if c = sep then [] :: s :: ss else (c :: s) :: ss

/-- JS `Array.prototype.join` with a single-character separator. -/
def joinSep (sep : Char) : List Str → Str
  | [] => []
  | [s] => s
  | s :: ss => s ++ sep :: joinSep sep ss

/-- The namespaced tool name: `` `${serverId}_${t.name}` `` (server.ts line 236). -/
def encode (serverId toolName : Str) : Str :=
  serverId ++ '_' :: toolName

/-- The decoding in /api/chat (lines 268-269):
`const [serverId, ...fnParts] = fullName.split('_'); const fnName = fnParts.join('_')`. -/
def decode (fullName : Str) : Str × Str :=
  match splitOn '_' fullName with
  | [] => ([], [])
  | s :: ss => (s, joinSep '_' ss)

-- --------------------------------------------------
-- MCP clients and the connection registry
-- --------------------------------------------------

/-- One tool as returned by `client.listTools()`.  The input schema is a JSON
object, modelled as an association list of its fields (serialized); the
orchestrator only checks its presence and key count. -/
structure ToolDescr where
  name : Str
  description : Option Str
  inputSchema : List (Str × Str) := []
deriving DecidableEq

/-- A live MCP `Client` handle: the provider transport, abstracted to the two
operations the orchestrator uses.  `callTool` takes the tool name and the
argument payload (modelled by its serialization) and either returns the
serialized `result.content` or throws an error message. -/
structure Client where
  listTools : List ToolDescr
  callTool : Str → Str → Except Str Str

/-- `activeMCPConnections : Map<string, Client>` in insertion order. -/
abbrev Registry := List (Str × Client)

/-- `activeMCPConnections.get(key)`. -/
def lookupClient : Registry → Str → Option Client
  | [], _ => none
  | (k, c) :: rest, key => if k = key then some c else lookupClient rest key

/-- `activeMCPConnections.delete(key)` (removes the unique entry for the key). -/
def removeKey : Registry → Str → Registry
  | [], _ => []
  | (k, c) :: rest, key => if k = key then rest else (k, c) :: removeKey rest key

/-- `activeMCPConnections.set(key, client)` on a key that is not present:
the new entry goes to the end of the iteration order. -/
def setKey (reg : Registry) (key : Str) (client : Client) : Registry :=
  reg ++ [(key, client)]

-- --------------------------------------------------
-- Tool discovery (the toolsList of /api/chat, lines 226-243)
-- --------------------------------------------------

/-- extractServerId (lines 92-96): `key.slice(prefix.length)` where
`prefix = sessionId + '-'`; only called after the prefix test has passed. -/
def extractServerId (key sessionId : Str) : Str :=
  key.drop (sessionId.length + 1)

/-- The entry pushed onto the OpenAI `tools` array for one MCP tool. -/
structure OpenAITool where
  name : Str
  description : Str
  parameters : List (Str × Str)
deriving DecidableEq

/-- The default parameters object `{ type: 'object', properties: {} }`. -/
def defaultParams : List (Str × Str) :=
  [("type".data, "object".data), ("properties".data, [])]

def mkTool (serverId : Str) (t : ToolDescr) : OpenAITool :=
  { name := encode serverId t.name
    description := t.description.getD []
    parameters := if t.inputSchema ≠ [] then t.inputSchema else defaultParams }

/-- The toolsList loop of /api/chat (lines 228-242): every registry entry
whose key starts with `` `${sessionId}-` `` contributes its namespaced tools,
in registry iteration order. -/
def buildToolsList : Registry → Str → List OpenAITool
  | [], _ => []
  | (key, client) :: rest, sessionId =>
      if (sessionId ++ ['-']).isPrefixOf key then
        client.listTools.map (mkTool (extractServerId key sessionId))
          ++ buildToolsList rest sessionId
      else buildToolsList rest sessionId

-- --------------------------------------------------
-- Tool dispatch inside one turn (lines 263-288)
-- --------------------------------------------------

/-- `JSON.stringify({ error: msg })` (string escaping inside the message is
not modelled). -/
def errorJson (msg : Str) : Str :=
  "\x7b\x22error\x22:\x22".data ++ msg ++ "\x22\x7d".data

def notConnectedMsg (serverId : Str) : Str :=
  "MCP server ".data ++ serverId ++ " not connected".data

/-- The tool message pushed for one call (line 285). -/
def mkToolMsg (callId content : Str) : Message :=
  { role := toolRole, content := .str content, tool_call_id := some callId }

/-- The body of the per-call loop (lines 263-287): a call without a
`function` field is skipped (`continue`); otherwise its namespaced name is
decoded, the client looked up under `` `${sessionId}-${serverId}` ``, and the
appended tool message carries the serialized result on success and a
serialized error object when the provider is not connected or the invocation
throws. -/
def processCall (reg : Registry) (sessionId : Str) (call : ToolCall) : List Message :=
  match call.function with
  | none => []
  | some fn =>
      let serverId := (decode fn.name).1
      let fnName := (decode fn.name).2
      let clientKey := sessionId ++ '-' :: serverId
      let resultContent : Str :=
        match lookupClient reg clientKey with
        | none => errorJson (notConnectedMsg serverId)
        | some client =>
            match client.callTool fnName fn.arguments with
            | .ok content => content
            | .error e => errorJson e
      [mkToolMsg call.id resultContent]

/-- The whole `for (const call of assistant.tool_calls)` pass of one turn. -/
def dispatchCalls (reg : Registry) (sessionId : Str) : List ToolCall → List Message
  | [] => []
  | call :: rest => processCall reg sessionId call ++ dispatchCalls reg sessionId rest

-- --------------------------------------------------
-- The multi-turn chat loop (lines 218-299)
-- --------------------------------------------------

/-- The assistant message of one completion: content and requested tool calls
(`completion.choices[0].message`). -/
structure AssistantResponse where
  content : Option Str
  tool_calls : List ToolCall
deriving DecidableEq

/-- A model service: maps the pruned conversation and the tools list to the
next assistant response.  Quantifying over this function quantifies over all
possible assistant responses. -/
abbrev ModelService := List Message → List OpenAITool → AssistantResponse

/-- The planning record pushed when tool calls are requested (line 259):
`{ role: 'assistant', content: null, tool_calls }`. -/
def assistantToolMsg (calls : List ToolCall) : Message :=
  { role := assistantRole, content := .null, tool_calls := calls }

/-- The JSON body answered by /api/chat (line 299). -/
structure ChatResponse where
  message : Option AssistantResponse
  toolCalls : List ToolCall
  toolResults : List Message
deriving DecidableEq

/-- The `for (let turn = 0; turn < maxTurns; turn++)` loop (lines 251-297),
with the remaining turn count as the recursion argument and the
`allToolCalls` / `allToolResults` accumulators threaded through.  Running out
of turns answers with `lastAssistantMsg` still `null`; a response without
tool calls answers with that assistant message. -/
def chatLoop (mdl : ModelService) (tools : List OpenAITool) (reg : Registry)
    (sessionId : Str) : Nat → List Message → List ToolCall → List Message → ChatResponse
  | 0, _, tcs, trs => ⟨none, tcs, trs⟩
  | n + 1, convo, tcs, trs =>
      let a := mdl (pruneConversation convo) tools
      if a.tool_calls.isEmpty then ⟨some a, tcs, trs⟩
      else
        chatLoop mdl tools reg sessionId n
          (pruneConversation convo
            ++ assistantToolMsg a.tool_calls :: dispatchCalls reg sessionId a.tool_calls)
          (tcs ++ a.tool_calls)
          (trs ++ dispatchCalls reg sessionId a.tool_calls)

/-- The /api/chat endpoint for a well-formed request: builds the tools list
(empty when `useMCP` is false) and runs the turn loop on a copy of the
request messages with empty trace accumulators. -/
def apiChat (mdl : ModelService) (useMCP : Bool) (reg : Registry) (sessionId : Str)
    (messages : List Message) (maxTurns : Nat) : ChatResponse :=
  chatLoop mdl (if useMCP then buildToolsList reg sessionId else []) reg sessionId
    maxTurns messages [] []

/-- The ordered trace of all tool calls and all tool results the loop issues,
turn by turn, for a given model service: the reference value that the
response's `toolCalls` / `toolResults` fields are compared against. -/
def loopTrace (mdl : ModelService) (tools : List OpenAITool) (reg : Registry)
    (sessionId : Str) : Nat → List Message → List ToolCall × List Message
  | 0, _ => ([], [])
  | n + 1, convo =>
      let a := mdl (pruneConversation convo) tools
      if a.tool_calls.isEmpty then ([], [])
      else
        let rest := loopTrace mdl tools reg sessionId n
          (pruneConversation convo
            ++ assistantToolMsg a.tool_calls :: dispatchCalls reg sessionId a.tool_calls)
        (a.tool_calls ++ rest.1, dispatchCalls reg sessionId a.tool_calls ++ rest.2)

-- --------------------------------------------------
-- /api/mcp/connect (lines 166-194)
-- --------------------------------------------------

inductive ConnStatus where
  | connected
  | alreadyConnected
  | failed (error : Str)
deriving DecidableEq

/-- One iteration of the connect loop (lines 174-188) for one server id.
`spawn` models `connectToMCPServer` (fetching the launch spec, spawning the
provider process and handshaking): it either yields a live client or throws.
When the key is already present the loop records "already connected" and
`continue`s without touching `spawn` or the registry. -/
def connectStep (spawn : Str → Except Str Client) (reg : Registry)
    (sessionId id : Str) : Registry × ConnStatus :=
  let key := sessionId ++ '-' :: id
  if (lookupClient reg key).isSome then (reg, .alreadyConnected)
  else
    match spawn id with
    | .ok client => (setKey reg key client, .connected)
    | .error e => (reg, .failed e)

/-- The whole connect endpoint: fold the step over the requested ids,
collecting per-id results. -/
def connectEndpoint (spawn : Str → Except Str Client) (reg : Registry)
    (sessionId : Str) : List Str → Registry × List (Str × ConnStatus)
  | [] => (reg, [])
  | id :: rest =>
      let step := connectStep spawn reg sessionId id
      let tail := connectEndpoint spawn step.1 sessionId rest
      (tail.1, (id, step.2) :: tail.2)

-- --------------------------------------------------
-- /api/mcp/disconnect (lines 309-334)
-- --------------------------------------------------

/-- `k.split('-')[1]`: the element at index 1 of the split, or the string
"undefined" interpolated by the template literal when the split has fewer
than two elements. -/
def secondSegment (k : Str) : Str :=
  ((splitOn '-' k).drop 1).headD "undefined".data

/-- The ids used when the request carries no explicit `serverIds` (line 316):
all registry keys that start with the session id (no separator appended),
each mapped to `k.split('-')[1]`. -/
def implicitIds (reg : Registry) (sessionId : Str) : List Str :=
  ((reg.map Prod.fst).filter (fun k => sessionId.isPrefixOf k)).map secondSegment

/-- The disconnect loop (lines 318-327): for each id rebuild the key, and
when a client is registered under it, close it, delete the entry and record
the id. -/
def disconnectLoop (sessionId : Str) : Registry → List Str → Registry × List Str
  | reg, [] => (reg, [])
  | reg, id :: rest =>
      let key := sessionId ++ '-' :: id
      if (lookupClient reg key).isSome then
        let tail := disconnectLoop sessionId (removeKey reg key) rest
        (tail.1, id :: tail.2)
      else disconnectLoop sessionId reg rest

/-- The /api/mcp/disconnect endpoint: explicit ids when given, otherwise the
ids recovered from the registry keys. -/
def disconnectEndpoint (reg : Registry) (sessionId : Str)
    (serverIds : Option (List Str)) : Registry × List Str :=
  disconnectLoop sessionId reg
    (match serverIds with
     | some ids => ids
     | none => implicitIds reg sessionId)

-- --------------------------------------------------
-- Reference model of pruneConversation for its effect on the caller's data
-- --------------------------------------------------

/-- A heap of message objects: JS object references become addresses.  The
code never mutates the inside of a content value (clipMessage only reassigns
the whole `content` field of its argument object), so content-level sharing
needs no extra modelling. -/
structure Heap where
  mem : Nat → Message
  next : Nat

/-- Assignment to a field of the object at `a` (here: replacing the whole
message value stored at `a`). -/
def Heap.write (h : Heap) (a : Nat) (m : Message) : Heap :=
  ⟨fun b => if b = a then m else h.mem b, h.next⟩

/-- Allocation of a fresh object (`{ ...m, content: m.content }` builds a new
object): the value goes to the next unused address. -/
def Heap.alloc (h : Heap) (m : Message) : Nat × Heap :=
  (h.next, ⟨fun b => if b = h.next then m else h.mem b, h.next + 1⟩)

/-- The first pass of pruneConversation (lines 73-77) on the heap: for each
input message, allocate a shallow copy, mutate the copy in place via
clipMessage, and collect the copy's address. -/
def clonePass : Heap → List Nat → List Nat × Heap
  | h, [] => ([], h)
  | h, a :: rest =>
      let alloc := h.alloc (h.mem a)
      let h2 := alloc.2.write alloc.1 (clipMessage (alloc.2.mem alloc.1))
      let tail := clonePass h2 rest
      (alloc.1 :: tail.1, tail.2)

/-- The splice pass on addresses (it only reads the heap and rearranges the
fresh `pruned` array, mirroring `removeFirstNonSystem`). -/
def removeFirstNonSystemA (h : Heap) : List Nat → Option (List Nat)
  | [] => none
  | a :: rest =>
      if (h.mem a).role = sysRole then (removeFirstNonSystemA h rest).map (fun r => a :: r)
      else some rest

/-- The while loop of pruneConversation on the heap view. -/
def pruneLoopA (h : Heap) (as : List Nat) : List Nat :=
  if MAX_CONTEXT_TOKENS < totalTokens (as.map h.mem) ∧ 1 < as.length then
    match hr : removeFirstNonSystemA h as with
    | none => as
    | some as' => pruneLoopA h as'
  else as
termination_by as.length
decreasing_by
  have hlen : ∀ l : List Nat, ∀ l' : List Nat,
      removeFirstNonSystemA h l = some l' → l'.length + 1 = l.length := by
    intro l
    induction l with
    | nil => intro l' hh; simp [removeFirstNonSystemA] at hh
    | cons a rest ih =>
        intro l' hh
        by_cases hm : (h.mem a).role = sysRole
        · simp only [removeFirstNonSystemA, if_pos hm, Option.map_eq_some'] at hh
          obtain ⟨r, hr', rfl⟩ := hh
          simp [ih r hr']
        · simp only [removeFirstNonSystemA, if_neg hm, Option.some_inj] at hh
          subst hh
          simp
  have := hlen as as' hr
  omega

/-- pruneConversation on the heap: clone-and-clip every input message, then
run the splice loop over the fresh addresses; the final heap is the one the
caller observes after the call. -/
def pruneConversationH (h : Heap) (input : List Nat) : List Nat × Heap :=
  let pass := clonePass h input
  (pruneLoopA pass.2 pass.1, pass.2)

-- --------------------------------------------------
-- Concrete instances used in counterexamples and witnesses
-- --------------------------------------------------

/-- A structured (non-string) content whose serialization is 360003
characters: its cost estimate is 120001 tokens, above the whole budget. -/
def bigOther : Str := List.replicate 360003 'x'

/-- A single user message that alone exceeds MAX_CONTEXT_TOKENS and, having
non-string content, is never clipped. -/
def oversizedOtherMsg : Message := { role := userRole, content := .other bigOther }

/-- A 24003-character string content: 8001 estimated tokens, just above the
per-message ceiling. -/
def bigStr : Str := List.replicate 24003 'a'

/-- A user message whose string content exceeds MAX_SINGLE_MSG_TOKENS. -/
def oversizedStrMsg : Message := { role := userRole, content := .str bigStr }

/-- Partial assistant content accompanying a tool-call request. -/
def draftAnswer : Str := "partial thoughts".data

/-- A model service that answers every turn with the same tool-call request
and some accompanying assistant content: the loop can only exhaust its turn
limit against it. -/
def alwaysToolMdl : ModelService :=
  fun _ _ => ⟨some draftAnswer, [⟨"1".data, some ⟨"p_t".data, []⟩⟩]⟩

/-- A namespaced tool-call function payload targeting tool `t` of provider `p`. -/
def c7Fn : ToolCallFunction := ⟨"p_t".data, []⟩

/-- A function-bearing tool call with correlation id 1. -/
def c7Call : ToolCall := ⟨"1".data, some c7Fn⟩

/-- A client with no tools whose every invocation throws. -/
def dummyClient : Client := ⟨[], fun _ _ => .error []⟩

/-- A spawner that always fails: connecting through it can never add an entry. -/
def spawnNone : Str → Except Str Client := fun _ => .error "boom".data

/-- A provider tool named `t`. -/
def toolT : ToolDescr := ⟨"t".data, none, []⟩

/-- A client exposing the single tool `t`. -/
def clientT : Client := ⟨[toolT], fun _ _ => .error []⟩

/-- A spawner that always succeeds with `clientT`. -/
def spawnT : Str → Except Str Client := fun _ => .ok clientT

/-- A one-object heap: address 0 holds a user message. -/
def h0Heap : Heap := ⟨fun _ => { role := userRole, content := .null }, 1⟩

-- --------------------------------------------------
-- Lemmas on the pruning loop shape
-- --------------------------------------------------

theorem pruneLoop_stop {ms : List Message}
    (h : ¬ (MAX_CONTEXT_TOKENS < totalTokens ms ∧ 1 < ms.length)) :
    pruneLoop ms = ms := by
  rw [pruneLoop, if_neg h]

theorem pruneLoop_allsys {ms : List Message}
    (hc : MAX_CONTEXT_TOKENS < totalTokens ms ∧ 1 < ms.length)
    (h : removeFirstNonSystem ms = none) : pruneLoop ms = ms := by
  rw [pruneLoop, if_pos hc]
  split
  · rfl
  · next ms' heq => rw [h] at heq; cases heq

theorem pruneLoop_step {ms ms' : List Message}
    (hc : MAX_CONTEXT_TOKENS < totalTokens ms ∧ 1 < ms.length)
    (h : removeFirstNonSystem ms = some ms') : pruneLoop ms = pruneLoop ms' := by
  rw [pruneLoop, if_pos hc]
  split
  · next heq => rw [h] at heq; cases heq
  · next ms2 heq => rw [h] at heq; injection heq with he; rw [he]

theorem removeFirstNonSystem_length {ms ms' : List Message}
    (h : removeFirstNonSystem ms = some ms') : ms'.length + 1 = ms.length := by
  induction ms generalizing ms' with
  | nil => simp [removeFirstNonSystem] at h
  | cons m rest ih =>
      by_cases hm : m.role = sysRole
      · simp only [removeFirstNonSystem, if_pos hm, Option.map_eq_some'] at h
        obtain ⟨r, hr, rfl⟩ := h
        simp [ih hr]
      · simp only [removeFirstNonSystem, if_neg hm, Option.some_inj] at h
        subst h
        simp

-- --------------------------------------------------
-- Lemmas on splitting and joining
-- --------------------------------------------------

theorem splitOn_ne_nil (sep : Char) (s : Str) : splitOn sep s ≠ [] := by
  cases s with
  | nil => simp [splitOn]
  | cons c rest =>
      rw [splitOn]
      cases splitOn sep rest with
      | nil => simp
      | cons a as =>
          by_cases hc : c = sep
          · simp [hc]
          · simp [hc]

theorem splitOn_cons {sep : Char} {rest : Str} {x : Str} {xs : List Str}
    (c : Char) (hx : splitOn sep rest = x :: xs) :
    splitOn sep (c :: rest) = if c = sep then [] :: x :: xs else (c :: x) :: xs := by
  rw [splitOn, hx]

theorem splitOn_no_sep {sep : Char} {s : Str} (h : sep ∉ s) : splitOn sep s = [s] := by
  induction s with
  | nil => rfl
  | cons c rest ih =>
      rw [splitOn, ih (fun hm => h (List.mem_cons_of_mem c hm))]
      have hc : ¬ c = sep := fun hc => h (hc ▸ List.mem_cons_self c rest)
      simp [hc]

theorem splitOn_append_no_sep (sep : Char) (a b : Str) (h : sep ∉ a) :
    splitOn sep (a ++ sep :: b) = a :: splitOn sep b := by
  induction a with
  | nil =>
      rw [List.nil_append, splitOn]
      obtain ⟨x, xs, hx⟩ : ∃ x xs, splitOn sep b = x :: xs := by
        cases hb : splitOn sep b with
        | nil => exact absurd hb (splitOn_ne_nil sep b)
        | cons x xs => exact ⟨x, xs, rfl⟩
      rw [hx]
      simp
  | cons c a' ih =>
      have hc : ¬ c = sep := fun hc => h (hc ▸ List.mem_cons_self c a')
      rw [List.cons_append, splitOn, ih (fun hm => h (List.mem_cons_of_mem c hm))]
      simp [hc]

theorem joinSep_splitOn (sep : Char) (s : Str) : joinSep sep (splitOn sep s) = s := by
  induction s with
  | nil => rfl
  | cons c rest ih =>
      obtain ⟨x, xs, hx⟩ : ∃ x xs, splitOn sep rest = x :: xs := by
        cases hb : splitOn sep rest with
        | nil => exact absurd hb (splitOn_ne_nil sep rest)
        | cons x xs => exact ⟨x, xs, rfl⟩
      rw [splitOn_cons c hx]
      by_cases hc : c = sep
      · rw [if_pos hc]
        have : joinSep sep ([] :: x :: xs) = sep :: joinSep sep (x :: xs) := rfl
        rw [this, ← hx, ih, hc]
      · rw [if_neg hc]
        cases xs with
        | nil =>
            have hrest : rest = x := by rw [← ih, hx]; rfl
            simp [joinSep, hrest]
        | cons x2 xs2 =>
            have h1 : joinSep sep ((c :: x) :: x2 :: xs2)
                = c :: (x ++ sep :: joinSep sep (x2 :: xs2)) := rfl
            have h2 : joinSep sep (x :: x2 :: xs2)
                = x ++ sep :: joinSep sep (x2 :: xs2) := rfl
            rw [h1, ← h2, ← hx, ih]

theorem splitOn_mem_no_sep {sep : Char} {s t : Str} (h : t ∈ splitOn sep s) : sep ∉ t := by
  induction s generalizing t with
  | nil =>
      simp only [splitOn, List.mem_singleton] at h
      subst h
      simp
  | cons c rest ih =>
      obtain ⟨x, xs, hx⟩ : ∃ x xs, splitOn sep rest = x :: xs := by
        cases hb : splitOn sep rest with
        | nil => exact absurd hb (splitOn_ne_nil sep rest)
        | cons x xs => exact ⟨x, xs, rfl⟩
      rw [splitOn_cons c hx] at h
      by_cases hc : c = sep
      · rw [if_pos hc] at h
        rcases List.mem_cons.mp h with h0 | h1
        · subst h0; simp
        · exact ih (hx ▸ h1)
      · rw [if_neg hc] at h
        rcases List.mem_cons.mp h with h0 | h1
        · subst h0
          intro hmem
          rcases List.mem_cons.mp hmem with h2 | h3
          · exact hc h2.symm
          · exact ih (hx ▸ List.mem_cons_self x xs) h3
        · exact ih (hx ▸ List.mem_cons_of_mem x h1)

-- --------------------------------------------------
-- C1: namespacing round-trip
-- --------------------------------------------------

/-- C1, counterexample: for providerId `a_b` and toolName `c`, the encoded
name `a_b_c` decodes to `(a, b_c)`, not back to `(a_b, c)`: the single split
on the first underscore misplaces the boundary when the provider id contains
the separator. -/
theorem c1_roundtrip_cex :
    decode (encode "a_b".data "c".data) ≠ ("a_b".data, "c".data) := by decide

/-- C1, amended: the round-trip `decode (encode providerId toolName) =
(providerId, toolName)` holds exactly when the provider id contains no
underscore; the tool name may contain underscores, because the decoder
rejoins all segments after the first. -/
theorem c1_roundtrip_amended (serverId toolName : Str) (h : '_' ∉ serverId) :
    decode (encode serverId toolName) = (serverId, toolName) := by
  unfold encode decode
  rw [splitOn_append_no_sep '_' serverId toolName h]
  simp [joinSep_splitOn]

/-- Witness for `c1_roundtrip_amended` at providerId `fs`, toolName `read_file`. -/
theorem c1_roundtrip_witness :
    '_' ∉ "fs".data ∧
      decode (encode "fs".data "read_file".data) = ("fs".data, "read_file".data) :=
  ⟨by decide, c1_roundtrip_amended "fs".data "read_file".data (by decide)⟩

-- --------------------------------------------------
-- Lemmas on tool dispatch
-- --------------------------------------------------

theorem dispatchCalls_append (reg : Registry) (sid : Str) (l1 l2 : List ToolCall) :
    dispatchCalls reg sid (l1 ++ l2)
      = dispatchCalls reg sid l1 ++ dispatchCalls reg sid l2 := by
  induction l1 with
  | nil => rfl
  | cons c rest ih => simp [dispatchCalls, ih]

theorem processCall_countP (reg : Registry) (sid : Str) (c : ToolCall) (i : Str) :
    (processCall reg sid c).countP (fun m => decide (m.tool_call_id = some i))
      = if c.id = i ∧ c.function.isSome then 1 else 0 := by
  cases hf : c.function with
  | none => simp [processCall, hf]
  | some fn =>
      by_cases hi : c.id = i
      · simp [processCall, hf, mkToolMsg, List.countP_cons, hi]
      · simp [processCall, hf, mkToolMsg, List.countP_cons, hi]

theorem dispatch_countP_zero (reg : Registry) (sid : Str) (calls : List ToolCall)
    (i : Str) (h : i ∉ calls.map ToolCall.id) :
    (dispatchCalls reg sid calls).countP (fun m => decide (m.tool_call_id = some i)) = 0 := by
  induction calls with
  | nil => rfl
  | cons c rest ih =>
      simp only [List.map_cons, List.mem_cons, not_or] at h
      rw [dispatchCalls, List.countP_append, processCall_countP,
        if_neg (fun hc => h.1 hc.1.symm), ih h.2]

-- --------------------------------------------------
-- C2: one ToolResult per issued ToolCall
-- --------------------------------------------------

/-- C2, counterexample: a turn whose single requested ToolCall has no
`function` field appends no ToolResult at all (the `if (!call.function)
continue` path), so that call stays dangling before the next model request. -/
theorem c2_one_result_per_call_cex :
    ([⟨"1".data, none⟩] : List ToolCall) ≠ [] ∧
      dispatchCalls [] "s".data [⟨"1".data, none⟩] = [] :=
  ⟨by decide, rfl⟩

/-- C2, amended: in a turn whose requested tool calls have pairwise distinct
correlation ids, the dispatch pass appends exactly one ToolResult carrying
the id of each call that has a `function` field, and none for a call whose
`function` field is absent (such a call is skipped and left without a
result). -/
theorem c2_one_result_per_call_amended (reg : Registry) (sid : Str)
    (calls : List ToolCall) (call : ToolCall)
    (hmem : call ∈ calls) (hnd : (calls.map ToolCall.id).Nodup) :
    (dispatchCalls reg sid calls).countP (fun m => decide (m.tool_call_id = some call.id))
      = if call.function.isSome then 1 else 0 := by
  induction calls with
  | nil => cases hmem
  | cons c rest ih =>
      rw [dispatchCalls, List.countP_append, processCall_countP]
      simp only [List.map_cons, List.nodup_cons] at hnd
      rcases List.mem_cons.mp hmem with rfl | hm
      · rw [dispatch_countP_zero reg sid rest call.id hnd.1]
        by_cases hs : call.function.isSome <;> simp [hs]
      · have hne : ¬ (c.id = call.id ∧ c.function.isSome = true) := by
          rintro ⟨he, _⟩
          exact hnd.1 (he ▸ List.mem_map_of_mem ToolCall.id hm)
        rw [if_neg hne, ih hm hnd.2]
        omega

/-- Witness for `c2_one_result_per_call_amended`: one function-bearing call
with id `1` against an empty registry gets exactly one ToolResult. -/
theorem c2_one_result_per_call_witness :
    (⟨"1".data, some ⟨"p_t".data, []⟩⟩ : ToolCall) ∈
        ([⟨"1".data, some ⟨"p_t".data, []⟩⟩] : List ToolCall) ∧
      (dispatchCalls [] "s".data [⟨"1".data, some ⟨"p_t".data, []⟩⟩]).countP
        (fun m => decide (m.tool_call_id = some "1".data)) = 1 :=
  ⟨by decide, by
    simpa using c2_one_result_per_call_amended [] "s".data
      [⟨"1".data, some ⟨"p_t".data, []⟩⟩] ⟨"1".data, some ⟨"p_t".data, []⟩⟩
      (by decide) (by decide)⟩

-- --------------------------------------------------
-- More pruning lemmas
-- --------------------------------------------------

theorem totalTokens_singleton (m : Message) : totalTokens [m] = msgTokens m := by
  simp [totalTokens]

theorem msgTokens_other {m : Message} {j : Str} (h : m.content = .other j) :
    msgTokens m = strTokens j := by
  unfold msgTokens
  rw [h]

theorem removeFirstNonSystem_none {ms : List Message}
    (h : removeFirstNonSystem ms = none) : ∀ m ∈ ms, m.role = sysRole := by
  induction ms with
  | nil => intro m hm; cases hm
  | cons m0 rest ih =>
      by_cases hm0 : m0.role = sysRole
      · simp only [removeFirstNonSystem, if_pos hm0, Option.map_eq_none'] at h
        intro m hm
        rcases List.mem_cons.mp hm with rfl | hr
        · exact hm0
        · exact ih h m hr
      · simp [removeFirstNonSystem, if_neg hm0] at h

theorem removeFirstNonSystem_subset {ms ms' : List Message}
    (h : removeFirstNonSystem ms = some ms') : ∀ m ∈ ms', m ∈ ms := by
  induction ms generalizing ms' with
  | nil => simp [removeFirstNonSystem] at h
  | cons m0 rest ih =>
      by_cases hm0 : m0.role = sysRole
      · simp only [removeFirstNonSystem, if_pos hm0, Option.map_eq_some'] at h
        obtain ⟨r, hr, rfl⟩ := h
        intro m hm
        rcases List.mem_cons.mp hm with h1 | h1
        · exact h1 ▸ List.mem_cons_self _ _
        · exact List.mem_cons_of_mem m0 (ih hr m h1)
      · simp only [removeFirstNonSystem, if_neg hm0, Option.some_inj] at h
        subst h
        exact fun m hm => List.mem_cons_of_mem m0 hm

theorem pruneLoop_subset_aux :
    ∀ n : Nat, ∀ ms : List Message, ms.length ≤ n → ∀ m ∈ pruneLoop ms, m ∈ ms := by
  intro n
  induction n with
  | zero =>
      intro ms hl m hm
      have hnil : ms = [] := List.length_eq_zero.mp (Nat.le_zero.mp hl)
      subst hnil
      rwa [pruneLoop_stop (by simp)] at hm
  | succ n ih =>
      intro ms hl m hm
      by_cases hc : MAX_CONTEXT_TOKENS < totalTokens ms ∧ 1 < ms.length
      · cases hrem : removeFirstNonSystem ms with
        | none => rwa [pruneLoop_allsys hc hrem] at hm
        | some ms' =>
            rw [pruneLoop_step hc hrem] at hm
            have hlen := removeFirstNonSystem_length hrem
            exact removeFirstNonSystem_subset hrem m (ih ms' (by omega) m hm)
      · rwa [pruneLoop_stop hc] at hm

theorem pruneLoop_subset (ms : List Message) : ∀ m ∈ pruneLoop ms, m ∈ ms :=
  pruneLoop_subset_aux ms.length ms le_rfl

theorem pruneLoop_spec_aux :
    ∀ n : Nat, ∀ ms : List Message, ms.length ≤ n →
      totalTokens (pruneLoop ms) ≤ MAX_CONTEXT_TOKENS
        ∨ (pruneLoop ms).length ≤ 1
        ∨ ∀ m ∈ pruneLoop ms, m.role = sysRole := by
  intro n
  induction n with
  | zero =>
      intro ms hl
      have hnil : ms = [] := List.length_eq_zero.mp (Nat.le_zero.mp hl)
      subst hnil
      rw [pruneLoop_stop (by simp)]
      right; left; simp
  | succ n ih =>
      intro ms hl
      by_cases hc : MAX_CONTEXT_TOKENS < totalTokens ms ∧ 1 < ms.length
      · cases hrem : removeFirstNonSystem ms with
        | none =>
            rw [pruneLoop_allsys hc hrem]
            exact Or.inr (Or.inr (removeFirstNonSystem_none hrem))
        | some ms' =>
            rw [pruneLoop_step hc hrem]
            have hlen := removeFirstNonSystem_length hrem
            exact ih ms' (by omega)
      · rw [pruneLoop_stop hc]
        rcases Decidable.not_and_iff_or_not.mp hc with h | h
        · exact Or.inl (by omega)
        · exact Or.inr (Or.inl (by omega))

-- --------------------------------------------------
-- C3: budget invariant of pruneConversation
-- --------------------------------------------------

/-- C3, counterexample: a conversation consisting of one user message with
structured (non-string) content costing 120001 tokens.  The clipping pass
ignores non-string contents, and the pruning loop requires more than one
message, so pruneConversation returns it unchanged: the total still exceeds
MAX_CONTEXT_TOKENS while a non-pinned (non-system) message remains. -/
theorem c3_budget_cex :
    ¬ (totalTokens (pruneConversation [oversizedOtherMsg]) ≤ MAX_CONTEXT_TOKENS
        ∨ ∀ m ∈ pruneConversation [oversizedOtherMsg], m.role = sysRole) := by
  have hmap : ([oversizedOtherMsg].map clipMessage) = [oversizedOtherMsg] := rfl
  have hlen1 : ([oversizedOtherMsg] : List Message).length = 1 := rfl
  have hpc : pruneConversation [oversizedOtherMsg] = [oversizedOtherMsg] := by
    rw [pruneConversation, hmap,
      pruneLoop_stop (fun hand => absurd (hlen1 ▸ hand.2) (by norm_num))]
  rw [hpc]
  have htok : totalTokens [oversizedOtherMsg] = 120001 := by
    have h1 : bigOther.length = 360003 := by rw [bigOther, List.length_replicate]
    rw [totalTokens_singleton, msgTokens_other (j := bigOther) rfl, strTokens, h1]
    norm_num [BYTES_PER_TOKEN]
  have hM : MAX_CONTEXT_TOKENS = 120000 := rfl
  rintro (h | h)
  · omega
  · exact absurd (h oversizedOtherMsg (List.mem_singleton_self _)) (by decide)

/-- C3, amended: after pruneConversation, either the total estimated cost is
within MAX_CONTEXT_TOKENS, or every non-system message has been removed, or
exactly one message remains (the loop never drops the last message, even a
non-system one that still exceeds the budget on its own). -/
theorem c3_budget_amended (messages : List Message) :
    totalTokens (pruneConversation messages) ≤ MAX_CONTEXT_TOKENS
      ∨ (pruneConversation messages).length ≤ 1
      ∨ ∀ m ∈ pruneConversation messages, m.role = sysRole :=
  pruneLoop_spec_aux (messages.map clipMessage).length (messages.map clipMessage) le_rfl

theorem msgTokens_str {m : Message} {s : Str} (h : m.content = .str s) :
    msgTokens m = strTokens s := by
  unfold msgTokens
  rw [h]

theorem clipMessage_content (m : Message) :
    (clipMessage m).content = clipContent m.content := rfl

-- --------------------------------------------------
-- C4: unconditional clipping of oversized messages
-- --------------------------------------------------

/-- C4, counterexample: a message of 24003 characters costs 8001 tokens,
above the ceiling, and after clipping it costs 8004 tokens, still above the
ceiling — the 24000-character slice plus the 12-character truncation marker
exceeds MAX_SINGLE_MSG_TOKENS. -/
theorem c4_clip_cex :
    MAX_SINGLE_MSG_TOKENS < msgTokens oversizedStrMsg ∧
      ¬ msgTokens (clipMessage oversizedStrMsg) ≤ MAX_SINGLE_MSG_TOKENS := by
  have hbl : bigStr.length = 24003 := by rw [bigStr, List.length_replicate]
  have hbig : strTokens bigStr = 8001 := by
    rw [strTokens, hbl]
    norm_num [BYTES_PER_TOKEN]
  have hgt : MAX_SINGLE_MSG_TOKENS < strTokens bigStr := by
    rw [hbig]; norm_num [MAX_SINGLE_MSG_TOKENS]
  constructor
  · show MAX_SINGLE_MSG_TOKENS < strTokens bigStr
    exact hgt
  · have hclip : clipContent (.str bigStr)
        = .str (bigStr.take (MAX_SINGLE_MSG_TOKENS * BYTES_PER_TOKEN) ++ truncMarker) := by
      rw [clipContent, if_pos hgt]
    have hlen : (bigStr.take (MAX_SINGLE_MSG_TOKENS * BYTES_PER_TOKEN) ++ truncMarker).length
        = 24012 := by
      have hmark : truncMarker.length = 12 := rfl
      rw [List.length_append, List.length_take, hbl, hmark]
      norm_num [MAX_SINGLE_MSG_TOKENS, BYTES_PER_TOKEN]
    have h8 : msgTokens (clipMessage oversizedStrMsg) = 8004 := by
      show msgTokens ⟨userRole, clipContent (.str bigStr), [], none⟩ = 8004
      rw [hclip]
      show strTokens (bigStr.take (MAX_SINGLE_MSG_TOKENS * BYTES_PER_TOKEN) ++ truncMarker)
        = 8004
      rw [strTokens, hlen]
      norm_num [BYTES_PER_TOKEN]
    rw [h8]
    norm_num [MAX_SINGLE_MSG_TOKENS]

/-- C4, amended: the clipping pass runs unconditionally (every message of the
pruned conversation is the clip of an input message, whatever the total
cost), but only string contents are clipped, and an oversized string content
is truncated to MAX_SINGLE_MSG_TOKENS + 4 tokens — the ceiling plus the cost
of the appended truncation marker — not to the ceiling itself. -/
theorem c4_clip_amended :
    (∀ m : Message, ∀ s : Str, m.content = .str s →
        MAX_SINGLE_MSG_TOKENS < strTokens s →
          (clipMessage m).content
              = .str (s.take (MAX_SINGLE_MSG_TOKENS * BYTES_PER_TOKEN) ++ truncMarker)
            ∧ msgTokens (clipMessage m) = MAX_SINGLE_MSG_TOKENS + 4)
      ∧ ∀ ms : List Message, ∀ m' ∈ pruneConversation ms,
          ∃ m0 ∈ ms, m' = clipMessage m0 := by
  constructor
  · intro m s hc hgt
    have hclip : (clipMessage m).content
        = .str (s.take (MAX_SINGLE_MSG_TOKENS * BYTES_PER_TOKEN) ++ truncMarker) := by
      rw [clipMessage_content, hc, clipContent, if_pos hgt]
    refine ⟨hclip, ?_⟩
    have hsl : 24001 ≤ s.length := by
      have h1 : 8001 ≤ (min s.length 1000000 + (BYTES_PER_TOKEN - 1)) / BYTES_PER_TOKEN := hgt
      have h2 : 8001 * 3 ≤ min s.length 1000000 + 2 :=
        (Nat.le_div_iff_mul_le (by norm_num)).mp (by simpa [BYTES_PER_TOKEN] using h1)
      have h3 : min s.length 1000000 ≤ s.length := Nat.min_le_left _ _
      omega
    have hlen : (s.take (MAX_SINGLE_MSG_TOKENS * BYTES_PER_TOKEN) ++ truncMarker).length
        = 24012 := by
      have hmark : truncMarker.length = 12 := rfl
      have htake : (s.take (MAX_SINGLE_MSG_TOKENS * BYTES_PER_TOKEN)).length = 24000 := by
        rw [List.length_take]
        have : MAX_SINGLE_MSG_TOKENS * BYTES_PER_TOKEN = 24000 := rfl
        omega
      rw [List.length_append, htake, hmark]
    rw [msgTokens_str hclip, strTokens, hlen]
    norm_num [BYTES_PER_TOKEN, MAX_SINGLE_MSG_TOKENS]
  · intro ms m' hm'
    have := pruneLoop_subset (ms.map clipMessage) m' hm'
    obtain ⟨m0, hm0, he⟩ := List.mem_map.mp this
    exact ⟨m0, hm0, he.symm⟩

/-- Witness for `c4_clip_amended` at the 24003-character message. -/
theorem c4_clip_witness :
    (oversizedStrMsg.content = .str bigStr
        ∧ MAX_SINGLE_MSG_TOKENS < strTokens bigStr) ∧
      (clipMessage oversizedStrMsg).content
          = .str (bigStr.take (MAX_SINGLE_MSG_TOKENS * BYTES_PER_TOKEN) ++ truncMarker)
        ∧ msgTokens (clipMessage oversizedStrMsg) = MAX_SINGLE_MSG_TOKENS + 4 := by
  have hgt : MAX_SINGLE_MSG_TOKENS < strTokens bigStr := by
    have hbl : bigStr.length = 24003 := by rw [bigStr, List.length_replicate]
    rw [strTokens, hbl]
    norm_num [BYTES_PER_TOKEN, MAX_SINGLE_MSG_TOKENS]
  exact ⟨⟨rfl, hgt⟩, c4_clip_amended.1 oversizedStrMsg bigStr rfl hgt⟩

-- --------------------------------------------------
-- C5: behaviour when the turn limit is exhausted
-- --------------------------------------------------

theorem chatLoop_exhaust_trace (mdl : ModelService) (tools : List OpenAITool)
    (reg : Registry) (sid : Str)
    (h : ∀ convo, (mdl convo tools).tool_calls ≠ []) :
    ∀ n : Nat, ∀ convo : List Message, ∀ tcs : List ToolCall, ∀ trs : List Message,
      chatLoop mdl tools reg sid n convo tcs trs
        = ⟨none, tcs ++ (loopTrace mdl tools reg sid n convo).1,
            trs ++ (loopTrace mdl tools reg sid n convo).2⟩ := by
  intro n
  induction n with
  | zero => intro convo tcs trs; simp [chatLoop, loopTrace]
  | succ n ih =>
      intro convo tcs trs
      have hne := h (pruneConversation convo)
      have hfalse : (mdl (pruneConversation convo) tools).tool_calls.isEmpty = false := by
        cases hl : (mdl (pruneConversation convo) tools).tool_calls with
        | nil => exact absurd hl hne
        | cons c cs => rfl
      simp only [chatLoop, loopTrace, hfalse]
      rw [ih]
      simp [List.append_assoc]

/-- C5, counterexample: with a model that on every turn requests a tool call
while also carrying assistant content, a one-turn chat exhausts its limit and
answers with a null message — the existing assistant content (recorded as
`content: null` on the planning message, and never assigned to
`lastAssistantMsg`) is not returned. -/
theorem c5_exhaustion_cex :
    (apiChat alwaysToolMdl true [] "s".data [] 1).message = none
      ∧ (alwaysToolMdl (pruneConversation []) (buildToolsList [] "s".data)).content
          = some draftAnswer
      ∧ (alwaysToolMdl (pruneConversation []) (buildToolsList [] "s".data)).tool_calls
          ≠ [] :=
  ⟨rfl, rfl, by decide⟩

/-- C5, amended: when the model requests tool calls on every turn, reaching
the turn limit still produces a structured response carrying the full ordered
trace of all ToolCalls and ToolResults issued, but its `message` field is
null: the assistant content of tool-calling turns is discarded, so no partial
answer is returned.  Exhaustion is not a failure. -/
theorem c5_exhaustion_amended (mdl : ModelService) (useMCP : Bool) (reg : Registry)
    (sid : Str) (messages : List Message) (maxTurns : Nat)
    (h : ∀ convo,
      (mdl convo (if useMCP then buildToolsList reg sid else [])).tool_calls ≠ []) :
    apiChat mdl useMCP reg sid messages maxTurns
      = ⟨none,
          (loopTrace mdl (if useMCP then buildToolsList reg sid else [])
            reg sid maxTurns messages).1,
          (loopTrace mdl (if useMCP then buildToolsList reg sid else [])
            reg sid maxTurns messages).2⟩ := by
  rw [apiChat, chatLoop_exhaust_trace mdl _ reg sid h maxTurns messages [] []]
  simp

/-- Witness for `c5_exhaustion_amended` at the constant tool-calling model. -/
theorem c5_exhaustion_witness :
    (∀ convo,
        (alwaysToolMdl convo
          (if true then buildToolsList [] "s".data else [])).tool_calls ≠ []) ∧
      apiChat alwaysToolMdl true [] "s".data [] 1
        = ⟨none,
            (loopTrace alwaysToolMdl (if true then buildToolsList [] "s".data else [])
              [] "s".data 1 []).1,
            (loopTrace alwaysToolMdl (if true then buildToolsList [] "s".data else [])
              [] "s".data 1 []).2⟩ :=
  ⟨fun _ h => List.noConfusion h,
    c5_exhaustion_amended alwaysToolMdl true [] "s".data [] 1
      (fun _ h => List.noConfusion h)⟩

-- --------------------------------------------------
-- C7: tool failures are data, isolated to their call
-- --------------------------------------------------

/-- C7, confirmed: the results a dispatch pass appends are the independent
concatenation of each call's own processing (so a sibling's outcome cannot
affect a call's result or prevent it from running); a call whose provider has
no live connection in the session gets a "not connected" error ToolResult, a
call whose invocation throws gets an error ToolResult carrying the message;
and a turn with tool calls always continues to the next planning step of the
loop.  (JSON.parse of the argument payload is modelled as total.) -/
theorem c7_tool_isolation (reg : Registry) (sid : Str) (l1 l2 : List ToolCall)
    (c : ToolCall) (fn : ToolCallFunction) (hfn : c.function = some fn) :
    dispatchCalls reg sid (l1 ++ c :: l2)
        = dispatchCalls reg sid l1 ++ processCall reg sid c ++ dispatchCalls reg sid l2
      ∧ (lookupClient reg (sid ++ '-' :: (decode fn.name).1) = none →
          processCall reg sid c
            = [mkToolMsg c.id (errorJson (notConnectedMsg (decode fn.name).1))])
      ∧ (∀ client : Client, ∀ e : Str,
          lookupClient reg (sid ++ '-' :: (decode fn.name).1) = some client →
          client.callTool (decode fn.name).2 fn.arguments = .error e →
          processCall reg sid c = [mkToolMsg c.id (errorJson e)])
      ∧ ∀ mdl : ModelService, ∀ tools : List OpenAITool, ∀ n : Nat,
          ∀ convo : List Message, ∀ tcs : List ToolCall, ∀ trs : List Message,
          (mdl (pruneConversation convo) tools).tool_calls ≠ [] →
          chatLoop mdl tools reg sid (n + 1) convo tcs trs
            = chatLoop mdl tools reg sid n
                (pruneConversation convo
                  ++ assistantToolMsg (mdl (pruneConversation convo) tools).tool_calls
                    :: dispatchCalls reg sid (mdl (pruneConversation convo) tools).tool_calls)
                (tcs ++ (mdl (pruneConversation convo) tools).tool_calls)
                (trs ++ dispatchCalls reg sid
                  (mdl (pruneConversation convo) tools).tool_calls) := by
  refine ⟨?_, ?_, ?_, ?_⟩
  · rw [dispatchCalls_append, dispatchCalls, List.append_assoc]
  · intro hlook
    simp [processCall, hfn, hlook]
  · intro client e hlook hcall
    simp [processCall, hfn, hlook, hcall]
  · intro mdl tools n convo tcs trs hne
    have hfalse : (mdl (pruneConversation convo) tools).tool_calls.isEmpty = false := by
      cases hl : (mdl (pruneConversation convo) tools).tool_calls with
      | nil => exact absurd hl hne
      | cons c cs => rfl
    simp only [chatLoop, hfalse]
    simp

/-- Witness for `c7_tool_isolation`: the single call `c7Call` against an
empty registry. -/
theorem c7_tool_isolation_witness :
    c7Call.function = some c7Fn ∧
      (dispatchCalls [] "s".data ([] ++ c7Call :: [])
          = dispatchCalls [] "s".data [] ++ processCall [] "s".data c7Call
            ++ dispatchCalls [] "s".data []
        ∧ (lookupClient [] ("s".data ++ '-' :: (decode c7Fn.name).1) = none →
            processCall [] "s".data c7Call
              = [mkToolMsg c7Call.id (errorJson (notConnectedMsg (decode c7Fn.name).1))])
        ∧ (∀ client : Client, ∀ e : Str,
            lookupClient [] ("s".data ++ '-' :: (decode c7Fn.name).1) = some client →
            client.callTool (decode c7Fn.name).2 c7Fn.arguments = .error e →
            processCall [] "s".data c7Call = [mkToolMsg c7Call.id (errorJson e)])
        ∧ ∀ mdl : ModelService, ∀ tools : List OpenAITool, ∀ n : Nat,
            ∀ convo : List Message, ∀ tcs : List ToolCall, ∀ trs : List Message,
            (mdl (pruneConversation convo) tools).tool_calls ≠ [] →
            chatLoop mdl tools [] "s".data (n + 1) convo tcs trs
              = chatLoop mdl tools [] "s".data n
                  (pruneConversation convo
                    ++ assistantToolMsg (mdl (pruneConversation convo) tools).tool_calls
                      :: dispatchCalls [] "s".data
                        (mdl (pruneConversation convo) tools).tool_calls)
                  (tcs ++ (mdl (pruneConversation convo) tools).tool_calls)
                  (trs ++ dispatchCalls [] "s".data
                    (mdl (pruneConversation convo) tools).tool_calls)) :=
  ⟨rfl, c7_tool_isolation [] "s".data [] [] c7Call c7Fn rfl⟩

-- --------------------------------------------------
-- C8: connect is idempotent on an already-connected key
-- --------------------------------------------------

/-- C8, confirmed: when the registry already holds a live connection under
`` `${sessionId}-${id}` ``, the connect loop records "already connected" and
leaves the registry unchanged, for every possible spawner — the provider
launcher is never consulted, so no second process is spawned. -/
theorem c8_connect_idempotent (spawn : Str → Except Str Client) (reg : Registry)
    (sessionId id : Str)
    (h : (lookupClient reg (sessionId ++ '-' :: id)).isSome = true) :
    connectStep spawn reg sessionId id = (reg, .alreadyConnected) := by
  simp [connectStep, h]

/-- Witness for `c8_connect_idempotent`: session `s`, provider `p`, with the
key `s-p` live and an always-failing spawner. -/
theorem c8_connect_idempotent_witness :
    (lookupClient [("s-p".data, dummyClient)] ("s".data ++ '-' :: "p".data)).isSome = true ∧
      connectStep spawnNone [("s-p".data, dummyClient)] "s".data "p".data
        = ([("s-p".data, dummyClient)], .alreadyConnected) :=
  ⟨rfl, c8_connect_idempotent spawnNone [("s-p".data, dummyClient)] "s".data "p".data rfl⟩

-- --------------------------------------------------
-- C9: the per-session tool catalog
-- --------------------------------------------------

theorem isPrefixOf_append (a b : Str) : a.isPrefixOf (a ++ b) = true := by
  induction a with
  | nil => simp [List.isPrefixOf]
  | cons x a' ih => simp [List.isPrefixOf, ih]

theorem extractServerId_eq (sid p : Str) : extractServerId (sid ++ '-' :: p) sid = p := by
  unfold extractServerId
  have h : sid ++ '-' :: p = (sid ++ ['-']) ++ p := by simp
  have h2 : sid.length + 1 = (sid ++ ['-']).length := by simp
  rw [h, h2, List.drop_left]

theorem prefixOf_own_key (sid p : Str) :
    (sid ++ ['-']).isPrefixOf (sid ++ '-' :: p) = true := by
  have h : sid ++ '-' :: p = (sid ++ ['-']) ++ p := by simp
  rw [h]
  exact isPrefixOf_append _ _

/-- C9, counterexample: after session `s-x` connects provider `p`, the chat
tool catalog for the distinct session `s` contains that connection's tool,
namespaced `x-p_t` — the bare `startsWith` filter on the concatenated key
cannot tell session `s-x` apart from session `s`. -/
theorem c9_catalog_cex :
    "s-x".data ≠ "s".data ∧
      (buildToolsList (connectStep spawnT [] "s-x".data "p".data).1 "s".data).map
          OpenAITool.name
        = [encode "x-p".data "t".data] :=
  ⟨by decide, by decide⟩

/-- C9, amended: the catalog for a session contains the namespaced tools of
every live connection whose key is `` `${sessionId}-${providerId}` `` for this
session, and depends only on connections whose key starts with
`` `${sessionId}-` `` — but that string test also accepts connections of any
other session whose own id extends `` `${sessionId}-` `` (e.g. session `s-x`
when the catalog of session `s` is built), so such foreign connections are
wrongly included. -/
theorem c9_catalog_amended (reg : Registry) (sid : Str) :
    (∀ p : Str, ∀ c : Client, (sid ++ '-' :: p, c) ∈ reg →
        ∀ t ∈ c.listTools, mkTool p t ∈ buildToolsList reg sid)
      ∧ buildToolsList reg sid
          = buildToolsList (reg.filter (fun e => (sid ++ ['-']).isPrefixOf e.1)) sid := by
  constructor
  · induction reg with
    | nil => intro p c hm t ht; cases hm
    | cons e rest ih =>
        intro p c hm t ht
        obtain ⟨k0, c0⟩ := e
        rw [buildToolsList]
        rcases List.mem_cons.mp hm with he | hr
        · injection he with h1 h2
          subst h1
          subst h2
          rw [if_pos (prefixOf_own_key sid p)]
          refine List.mem_append_left _ ?_
          rw [extractServerId_eq]
          exact List.mem_map_of_mem _ ht
        · by_cases hp : (sid ++ ['-']).isPrefixOf k0 = true
          · rw [if_pos hp]
            exact List.mem_append_right _ (ih p c hr t ht)
          · rw [if_neg hp]
            exact ih p c hr t ht
  · induction reg with
    | nil => rfl
    | cons e rest ih =>
        obtain ⟨k0, c0⟩ := e
        by_cases hp : (sid ++ ['-']).isPrefixOf k0 = true
        · rw [buildToolsList, if_pos hp, List.filter_cons_of_pos (by exact hp),
            buildToolsList, if_pos hp, ih]
        · rw [buildToolsList, if_neg hp, List.filter_cons_of_neg (by exact hp), ih]

/-- Witness for `c9_catalog_amended`: session `s` with its own connection to
provider `p` finds `p`'s tool, namespaced, in its catalog. -/
theorem c9_catalog_witness :
    (("s".data ++ '-' :: "p".data, clientT)
          ∈ ([("s".data ++ '-' :: "p".data, clientT)] : Registry)
        ∧ toolT ∈ clientT.listTools) ∧
      mkTool "p".data toolT
        ∈ buildToolsList [("s".data ++ '-' :: "p".data, clientT)] "s".data :=
  ⟨⟨List.mem_singleton_self _, List.mem_singleton_self _⟩,
    (c9_catalog_amended [("s".data ++ '-' :: "p".data, clientT)] "s".data).1
      "p".data clientT (List.mem_singleton_self _) toolT (List.mem_singleton_self _)⟩

-- --------------------------------------------------
-- Lemmas on registry keys, lookup and removal
-- --------------------------------------------------

theorem isPrefixOf_iff_exists : ∀ a k : Str, a.isPrefixOf k = true ↔ ∃ t, k = a ++ t
  | [], k => by
      simp only [List.isPrefixOf, List.nil_append, true_iff]
      exact ⟨k, rfl⟩
  | x :: a', [] => by
      simp [List.isPrefixOf]
  | x :: a', y :: k' => by
      simp only [List.isPrefixOf, Bool.and_eq_true, beq_iff_eq,
        isPrefixOf_iff_exists a' k', List.cons_append, List.cons.injEq]
      constructor
      · rintro ⟨h1, t, h2⟩
        exact ⟨t, h1.symm, h2⟩
      · rintro ⟨t, h1, h2⟩
        exact ⟨h1.symm, t, h2⟩

theorem lookupClient_isSome_iff (reg : Registry) (key : Str) :
    (lookupClient reg key).isSome = true ↔ key ∈ reg.map Prod.fst := by
  induction reg with
  | nil => simp [lookupClient]
  | cons e rest ih =>
      obtain ⟨k0, c0⟩ := e
      by_cases h : k0 = key
      · subst h
        rw [lookupClient, if_pos rfl]
        constructor
        · intro _
          simp only [List.map_cons]
          exact List.mem_cons_self _ _
        · intro _
          rfl
      · rw [lookupClient, if_neg h]
        simp only [List.map_cons, List.mem_cons, ih]
        constructor
        · exact Or.inr
        · rintro (h1 | h1)
          · exact absurd h1.symm h
          · exact h1

theorem removeKey_keys_sublist (reg : Registry) (key : Str) :
    ((removeKey reg key).map Prod.fst).Sublist (reg.map Prod.fst) := by
  induction reg with
  | nil => simp [removeKey]
  | cons e rest ih =>
      obtain ⟨k0, c0⟩ := e
      by_cases h : k0 = key
      · rw [removeKey, if_pos h]
        simp only [List.map_cons]
        exact List.Sublist.cons k0 (List.Sublist.refl _)
      · rw [removeKey, if_neg h]
        simp only [List.map_cons]
        exact List.Sublist.cons₂ k0 ih

theorem removeKey_not_mem {reg : Registry} {key : Str}
    (hnd : (reg.map Prod.fst).Nodup) : key ∉ (removeKey reg key).map Prod.fst := by
  induction reg with
  | nil => simp [removeKey]
  | cons e rest ih =>
      obtain ⟨k0, c0⟩ := e
      simp only [List.map_cons, List.nodup_cons] at hnd
      by_cases h : k0 = key
      · rw [removeKey, if_pos h]
        exact h ▸ hnd.1
      · rw [removeKey, if_neg h]
        simp only [List.map_cons, List.mem_cons, not_or]
        exact ⟨fun he => h he.symm, ih hnd.2⟩

theorem mem_removeKey_of_ne {reg : Registry} {key k : Str}
    (hne : k ≠ key) (h : k ∈ reg.map Prod.fst) :
    k ∈ (removeKey reg key).map Prod.fst := by
  induction reg with
  | nil => cases h
  | cons e rest ih =>
      obtain ⟨k0, c0⟩ := e
      simp only [List.map_cons, List.mem_cons] at h
      by_cases h0 : k0 = key
      · rw [removeKey, if_pos h0]
        rcases h with h1 | h1
        · exact absurd (h1.trans h0) hne
        · exact h1
      · rw [removeKey, if_neg h0]
        simp only [List.map_cons, List.mem_cons]
        rcases h with h1 | h1
        · exact Or.inl h1
        · exact Or.inr (ih h1)

-- --------------------------------------------------
-- Lemmas on the disconnect loop
-- --------------------------------------------------

theorem disconnectLoop_keys_subset (sid : Str) (ids : List Str) :
    ∀ reg : Registry, ∀ k : Str,
      k ∈ ((disconnectLoop sid reg ids).1).map Prod.fst → k ∈ reg.map Prod.fst := by
  induction ids with
  | nil => intro reg k hk; exact hk
  | cons id rest ih =>
      intro reg k hk
      by_cases hs : (lookupClient reg (sid ++ '-' :: id)).isSome = true
      · rw [disconnectLoop] at hk
        rw [if_pos hs] at hk
        exact (removeKey_keys_sublist reg (sid ++ '-' :: id)).subset
          (ih (removeKey reg (sid ++ '-' :: id)) k hk)
      · rw [disconnectLoop] at hk
        rw [if_neg hs] at hk
        exact ih reg k hk

theorem disconnectLoop_preserve (sid : Str) (ids : List Str) :
    ∀ reg : Registry, ∀ k : Str, k ∈ reg.map Prod.fst →
      (∀ id ∈ ids, k ≠ sid ++ '-' :: id) →
      k ∈ ((disconnectLoop sid reg ids).1).map Prod.fst := by
  induction ids with
  | nil => intro reg k hk _; exact hk
  | cons id rest ih =>
      intro reg k hk hne
      by_cases hs : (lookupClient reg (sid ++ '-' :: id)).isSome = true
      · rw [disconnectLoop, if_pos hs]
        refine ih (removeKey reg (sid ++ '-' :: id)) k ?_ ?_
        · exact mem_removeKey_of_ne (hne id (List.mem_cons_self _ _)) hk
        · exact fun i hi => hne i (List.mem_cons_of_mem _ hi)
      · rw [disconnectLoop, if_neg hs]
        exact ih reg k hk fun i hi => hne i (List.mem_cons_of_mem _ hi)

theorem disconnectLoop_kill (sid : Str) (ids : List Str) :
    ∀ reg : Registry, (reg.map Prod.fst).Nodup → ∀ id ∈ ids,
      (sid ++ '-' :: id) ∉ ((disconnectLoop sid reg ids).1).map Prod.fst := by
  induction ids with
  | nil => intro reg _ id hid; cases hid
  | cons id0 rest ih =>
      intro reg hnd id hid
      by_cases hs : (lookupClient reg (sid ++ '-' :: id0)).isSome = true
      · rw [disconnectLoop, if_pos hs]
        have hnd' : (((removeKey reg (sid ++ '-' :: id0)).map Prod.fst)).Nodup :=
          hnd.sublist (removeKey_keys_sublist reg (sid ++ '-' :: id0))
        rcases List.mem_cons.mp hid with rfl | hr
        · intro hmem
          exact removeKey_not_mem hnd
            (disconnectLoop_keys_subset sid rest _ _ hmem)
        · exact ih _ hnd' id hr
      · rw [disconnectLoop, if_neg hs]
        rcases List.mem_cons.mp hid with rfl | hr
        · intro hmem
          exact hs ((lookupClient_isSome_iff reg _).mpr
            (disconnectLoop_keys_subset sid rest reg _ hmem))
        · exact ih reg hnd id hr

-- --------------------------------------------------
-- Lemmas on the implicit server ids
-- --------------------------------------------------

theorem implicitIds_no_dash (reg : Registry) (sid : Str) :
    ∀ id ∈ implicitIds reg sid, '-' ∉ id := by
  intro id hid
  unfold implicitIds at hid
  obtain ⟨k, hk, hsk⟩ := List.mem_map.mp hid
  subst hsk
  unfold secondSegment
  cases hsp : (splitOn '-' k).drop 1 with
  | nil => simp [List.headD]
  | cons x xs =>
      simp only [List.headD]
      have hx : x ∈ splitOn '-' k :=
        List.drop_subset 1 _ (hsp ▸ List.mem_cons_self x xs)
      exact splitOn_mem_no_sep hx

theorem own_id_mem_implicitIds {reg : Registry} {sid p : Str}
    (hs : '-' ∉ sid) (hp : '-' ∉ p)
    (hk : (sid ++ '-' :: p) ∈ reg.map Prod.fst) : p ∈ implicitIds reg sid := by
  unfold implicitIds
  refine List.mem_map.mpr ⟨sid ++ '-' :: p, ?_, ?_⟩
  · exact List.mem_filter.mpr ⟨hk, isPrefixOf_append sid ('-' :: p)⟩
  · unfold secondSegment
    rw [splitOn_append_no_sep '-' sid p hs, splitOn_no_sep hp]
    rfl

-- --------------------------------------------------
-- C6: disconnect-all over the composite string keys
-- --------------------------------------------------

/-- C6, counterexample: session `s` connects provider `a-b`; the registry
then holds the key `s-a-b`.  Disconnect-all for session `s` recovers the id
`a` from `k.split('-')[1]`, looks up the absent key `s-a`, and closes
nothing: the session's connection survives, because the dash-concatenated
key cannot locate the boundary when the provider id contains `-`. -/
theorem c6_disconnect_all_cex :
    (connectStep spawnT [] "s".data "a-b".data).1
        = [("s".data ++ '-' :: "a-b".data, clientT)] ∧
      ((disconnectEndpoint (connectStep spawnT [] "s".data "a-b".data).1
          "s".data none).1).map Prod.fst
        = ["s".data ++ '-' :: "a-b".data] :=
  ⟨rfl, rfl⟩

/-- C6, amended: when the session id and the provider ids of all registered
keys are free of the separator `-` (so the first-dash split locates the
boundary unambiguously), disconnect-all removes exactly the keys of the form
`` `${sessionId}-${providerId}` `` of the given session: every connection of
this session is closed and removed, and every other session's connection
survives.  With a `-` inside either component the boundary is ambiguous and
this fails (see the counterexample). -/
theorem c6_disconnect_all_amended (reg : Registry) (sid : Str)
    (hs : '-' ∉ sid)
    (hw : ∀ e ∈ reg, ∃ s' p' : Str, e.1 = s' ++ '-' :: p' ∧ '-' ∉ s' ∧ '-' ∉ p')
    (hnd : (reg.map Prod.fst).Nodup) :
    ∀ k : Str, k ∈ ((disconnectEndpoint reg sid none).1).map Prod.fst
      ↔ (k ∈ reg.map Prod.fst ∧ (sid ++ ['-']).isPrefixOf k = false) := by
  intro k
  have hend : disconnectEndpoint reg sid none
      = disconnectLoop sid reg (implicitIds reg sid) := rfl
  rw [hend]
  constructor
  · intro hk
    have hkreg : k ∈ reg.map Prod.fst := disconnectLoop_keys_subset sid _ reg k hk
    refine ⟨hkreg, ?_⟩
    rcases Bool.eq_false_or_eq_true ((sid ++ ['-']).isPrefixOf k) with hb | hb
    swap
    · exact hb
    · exfalso
      obtain ⟨e, he, hek⟩ := List.mem_map.mp hkreg
      obtain ⟨s', p', hdec, hs', hp'⟩ := hw e he
      have hkdec : k = s' ++ '-' :: p' := by rw [← hek, hdec]
      obtain ⟨t, ht⟩ := (isPrefixOf_iff_exists (sid ++ ['-']) k).mp hb
      have ht' : k = sid ++ '-' :: t := by rw [ht]; simp
      have hsplit1 : splitOn '-' k = [s', p'] := by
        rw [hkdec, splitOn_append_no_sep '-' s' p' hs', splitOn_no_sep hp']
      have hsplit2 : splitOn '-' k = sid :: splitOn '-' t := by
        rw [ht', splitOn_append_no_sep '-' sid t hs]
      have hss : s' = sid := by
        have h12 := hsplit1.symm.trans hsplit2
        simp only [List.cons.injEq] at h12
        exact h12.1
      have hkdec2 : k = sid ++ '-' :: p' := by rw [hkdec, hss]
      have hpm : p' ∈ implicitIds reg sid :=
        own_id_mem_implicitIds hs hp' (hkdec2 ▸ hkreg)
      exact disconnectLoop_kill sid (implicitIds reg sid) reg hnd p' hpm (hkdec2 ▸ hk)
  · rintro ⟨hkreg, hpre⟩
    refine disconnectLoop_preserve sid (implicitIds reg sid) reg k hkreg ?_
    intro id hid heq
    have hb : (sid ++ ['-']).isPrefixOf k = true := by
      rw [heq]
      exact prefixOf_own_key sid id
    rw [hpre] at hb
    cases hb

/-- Witness for `c6_disconnect_all_amended`: registry with dash-free keys
`s-a` (session `s`) and `t-b` (session `t`); disconnect-all for `s` keeps
exactly the key of session `t`. -/
theorem c6_disconnect_all_witness :
    ('-' ∉ "s".data
        ∧ (∀ e ∈ ([("s".data ++ '-' :: "a".data, dummyClient),
              ("t".data ++ '-' :: "b".data, dummyClient)] : Registry),
            ∃ s' p' : Str, e.1 = s' ++ '-' :: p' ∧ '-' ∉ s' ∧ '-' ∉ p')
        ∧ ((([("s".data ++ '-' :: "a".data, dummyClient),
              ("t".data ++ '-' :: "b".data, dummyClient)] : Registry)).map
            Prod.fst).Nodup) ∧
      ∀ k : Str,
        k ∈ ((disconnectEndpoint
            [("s".data ++ '-' :: "a".data, dummyClient),
              ("t".data ++ '-' :: "b".data, dummyClient)] "s".data none).1).map Prod.fst
          ↔ (k ∈ (([("s".data ++ '-' :: "a".data, dummyClient),
                ("t".data ++ '-' :: "b".data, dummyClient)] : Registry)).map Prod.fst
              ∧ ("s".data ++ ['-']).isPrefixOf k = false) := by
  have hw : ∀ e ∈ ([("s".data ++ '-' :: "a".data, dummyClient),
        ("t".data ++ '-' :: "b".data, dummyClient)] : Registry),
      ∃ s' p' : Str, e.1 = s' ++ '-' :: p' ∧ '-' ∉ s' ∧ '-' ∉ p' := by
    intro e he
    rcases List.mem_cons.mp he with h1 | h1
    · exact ⟨"s".data, "a".data, by rw [h1], by decide, by decide⟩
    · rcases List.mem_cons.mp h1 with h2 | h2
      · exact ⟨"t".data, "b".data, by rw [h2], by decide, by decide⟩
      · cases h2
  exact ⟨⟨by decide, hw, by decide⟩,
    c6_disconnect_all_amended
      [("s".data ++ '-' :: "a".data, dummyClient),
        ("t".data ++ '-' :: "b".data, dummyClient)] "s".data (by decide) hw (by decide)⟩

-- --------------------------------------------------
-- Lemmas on the heap model of pruneConversation
-- --------------------------------------------------

theorem clonePass_next_le : ∀ l : List Nat, ∀ h : Heap,
    h.next ≤ (clonePass h l).2.next := by
  intro l
  induction l with
  | nil => intro h; exact Nat.le_refl _
  | cons x rest ih =>
      intro h
      have := ih ((h.alloc (h.mem x)).2.write (h.alloc (h.mem x)).1
        (clipMessage ((h.alloc (h.mem x)).2.mem (h.alloc (h.mem x)).1)))
      simp only [clonePass]
      simp only [Heap.alloc, Heap.write] at this ⊢
      omega

theorem clonePass_frame : ∀ l : List Nat, ∀ h : Heap, ∀ a : Nat, a < h.next →
    (clonePass h l).2.mem a = h.mem a := by
  intro l
  induction l with
  | nil => intro h a _; rfl
  | cons x rest ih =>
      intro h a ha
      simp only [clonePass, Heap.alloc, Heap.write]
      rw [ih _ a (by simp; omega)]
      have hne : ¬ a = h.next := Nat.ne_of_lt ha
      simp [hne]

theorem clonePass_fresh : ∀ l : List Nat, ∀ h : Heap,
    ∀ b ∈ (clonePass h l).1, h.next ≤ b := by
  intro l
  induction l with
  | nil => intro h b hb; cases hb
  | cons x rest ih =>
      intro h b hb
      simp only [clonePass] at hb
      rcases List.mem_cons.mp hb with hb1 | hb1
      · subst hb1
        exact Nat.le_refl _
      · have := ih _ b hb1
        simp only [Heap.alloc, Heap.write] at this
        omega

theorem removeFirstNonSystemA_length {h : Heap} {as as' : List Nat}
    (hr : removeFirstNonSystemA h as = some as') : as'.length + 1 = as.length := by
  induction as generalizing as' with
  | nil => simp [removeFirstNonSystemA] at hr
  | cons a rest ih =>
      by_cases hm : (h.mem a).role = sysRole
      · simp only [removeFirstNonSystemA, if_pos hm, Option.map_eq_some'] at hr
        obtain ⟨r, hr', rfl⟩ := hr
        simp [ih hr']
      · simp only [removeFirstNonSystemA, if_neg hm, Option.some_inj] at hr
        subst hr
        simp

theorem removeFirstNonSystemA_subset {h : Heap} {as as' : List Nat}
    (hr : removeFirstNonSystemA h as = some as') : ∀ a ∈ as', a ∈ as := by
  induction as generalizing as' with
  | nil => simp [removeFirstNonSystemA] at hr
  | cons a0 rest ih =>
      by_cases hm : (h.mem a0).role = sysRole
      · simp only [removeFirstNonSystemA, if_pos hm, Option.map_eq_some'] at hr
        obtain ⟨r, hr', rfl⟩ := hr
        intro a ha
        rcases List.mem_cons.mp ha with h1 | h1
        · exact h1 ▸ List.mem_cons_self _ _
        · exact List.mem_cons_of_mem a0 (ih hr' a h1)
      · simp only [removeFirstNonSystemA, if_neg hm, Option.some_inj] at hr
        subst hr
        exact fun a ha => List.mem_cons_of_mem a0 ha

theorem pruneLoopA_stop {h : Heap} {as : List Nat}
    (hc : ¬ (MAX_CONTEXT_TOKENS < totalTokens (as.map h.mem) ∧ 1 < as.length)) :
    pruneLoopA h as = as := by
  rw [pruneLoopA, if_neg hc]

theorem pruneLoopA_allsys {h : Heap} {as : List Nat}
    (hc : MAX_CONTEXT_TOKENS < totalTokens (as.map h.mem) ∧ 1 < as.length)
    (hr : removeFirstNonSystemA h as = none) : pruneLoopA h as = as := by
  rw [pruneLoopA, if_pos hc]
  split
  · rfl
  · next as' heq => rw [hr] at heq; cases heq

theorem pruneLoopA_step {h : Heap} {as as' : List Nat}
    (hc : MAX_CONTEXT_TOKENS < totalTokens (as.map h.mem) ∧ 1 < as.length)
    (hr : removeFirstNonSystemA h as = some as') :
    pruneLoopA h as = pruneLoopA h as' := by
  rw [pruneLoopA, if_pos hc]
  split
  · next heq => rw [hr] at heq; cases heq
  · next as2 heq => rw [hr] at heq; injection heq with he; rw [he]

theorem pruneLoopA_subset_aux (h : Heap) :
    ∀ n : Nat, ∀ as : List Nat, as.length ≤ n → ∀ a ∈ pruneLoopA h as, a ∈ as := by
  intro n
  induction n with
  | zero =>
      intro as hl a ha
      have hnil : as = [] := List.length_eq_zero.mp (Nat.le_zero.mp hl)
      subst hnil
      rwa [pruneLoopA_stop (by simp)] at ha
  | succ n ih =>
      intro as hl a ha
      by_cases hc : MAX_CONTEXT_TOKENS < totalTokens (as.map h.mem) ∧ 1 < as.length
      · cases hr : removeFirstNonSystemA h as with
        | none => rwa [pruneLoopA_allsys hc hr] at ha
        | some as' =>
            rw [pruneLoopA_step hc hr] at ha
            have hlen := removeFirstNonSystemA_length hr
            exact removeFirstNonSystemA_subset hr a (ih as' (by omega) a ha)
      · rwa [pruneLoopA_stop hc] at ha

theorem pruneLoopA_subset (h : Heap) (as : List Nat) :
    ∀ a ∈ pruneLoopA h as, a ∈ as :=
  pruneLoopA_subset_aux h as.length as (Nat.le_refl _)

-- --------------------------------------------------
-- C10: pruneConversation does not mutate its input
-- --------------------------------------------------

/-- C10, confirmed: running pruneConversation on a heap of message objects
leaves every input object exactly as it was — the clip mutation is applied
only to the freshly allocated copies — and the returned list consists of
fresh addresses only, none of which is an input address. -/
theorem c10_prune_no_mutation (h : Heap) (input : List Nat)
    (hvalid : ∀ a ∈ input, a < h.next) :
    (∀ a ∈ input, ((pruneConversationH h input).2).mem a = h.mem a)
      ∧ ∀ b ∈ (pruneConversationH h input).1, b ∉ input := by
  constructor
  · intro a ha
    show (clonePass h input).2.mem a = h.mem a
    exact clonePass_frame input h a (hvalid a ha)
  · intro b hb hbin
    have hb' : b ∈ pruneLoopA (clonePass h input).2 (clonePass h input).1 := hb
    have hb1 : b ∈ (clonePass h input).1 :=
      pruneLoopA_subset (clonePass h input).2 (clonePass h input).1 b hb'
    have hfresh : h.next ≤ b := clonePass_fresh input h b hb1
    have hlt : b < h.next := hvalid b hbin
    omega

/-- Witness for `c10_prune_no_mutation` at a one-object heap. -/
theorem c10_prune_no_mutation_witness :
    (∀ a ∈ [0], a < h0Heap.next) ∧
      ((∀ a ∈ [0], ((pruneConversationH h0Heap [0]).2).mem a = h0Heap.mem a)
        ∧ ∀ b ∈ (pruneConversationH h0Heap [0]).1, b ∉ [0]) :=
  ⟨by decide, c10_prune_no_mutation h0Heap [0] (by decide)⟩

end MCPDemo
